import Mathlib

/-! Hangman (MaloDaHood/Hangman)

A shallow embedding of the two `main.cpp` programs of the repository:

* `src/main.cpp` is the interactive variant (the secret word is asked for, the
  round can be replayed);
* `main.cpp` is the argument-driven variant (the secret word is `argv[1]`).

A `std::string` and a `std::vector<char>` are lists of characters, a `size_t`
is a natural number below `2 ^ 64` with wrap-around arithmetic, and `std::cin`
is the list of characters that are still unread.  A function that keeps
prompting for ever once the input is exhausted returns `none`.
-/

namespace Hangman

/-! ## Characters and machine integers -/

/-- The number of values of a `size_t` on the 64-bit targets of the program. -/
def sizeMod : Nat := 2 ^ 64

/-- The post-decrement `guessesLeft--` on a `size_t`: it wraps around at `0`. -/
def sizeDec (n : Nat) : Nat := (n + sizeMod - 1) % sizeMod

/-- The product `word.length() * 2` on a `size_t`. -/
def sizeDouble (n : Nat) : Nat := (n * 2) % sizeMod

/-- The library call `std::isalpha` in the default "C" locale. -/
def isalpha (c : Char) : Bool := c.isAlpha

/-- The library call `std::toupper` in the default "C" locale. -/
def toupper (c : Char) : Char := c.toUpper

/-- The library call `std::isspace` in the default "C" locale, which is what
`operator>>` skips before it reads. -/
def isspace (c : Char) : Bool :=
  c == ' ' || c == '\t' || c == '\n' || c == '\r' || c == Char.ofNat 11 || c == Char.ofNat 12

/-! ## The game functions of `src/main.cpp` -/

/-- Source `isGuessInWord`: `std::any_of` over the word with `letter == guess`. -/
def isGuessInWord (guess : Char) (word : List Char) : Bool :=
  word.any (fun letter => letter == guess)

/-- The body of the loop of `compareGuessToWord` at index `i`:
`if(guess == word[i]) guessedWord[i] = guess;`.  In `main` the guessed word is
as long as the word, so the write is in range. -/
def compareAt (guess : Char) (word guessedWord : List Char) (i : Nat) : List Char :=
  if word[i]? = some guess then guessedWord.set i guess else guessedWord

/-- Source `compareGuessToWord`: the loop `for(size_t i {0}; i < word.length(); i++)`
over `compareAt`. -/
def compareGuessToWord (guess : Char) (word guessedWord : List Char) : List Char :=
  (List.range word.length).foldl (compareAt guess word) guessedWord

/-- Source `addMissedGuess`: push the guess on an empty list, return early when
the guess is already listed, push it otherwise. -/
def addMissedGuess (guess : Char) (misses : List Char) : List Char :=
  if misses.isEmpty then misses ++ [guess]
  else if misses.any (fun miss => guess == miss) then misses
  else misses ++ [guess]

/-- Source `isGameOver`: no `'_'` is left in the guessed word, or no guess is left. -/
def isGameOver (guessedWord : List Char) (guessesLeft : Nat) : Bool :=
  !guessedWord.any (fun letter => letter == '_') || guessesLeft == 0

/-- The variables of one round in `main`. -/
structure State where
  word : List Char
  guessedWord : List Char
  misses : List Char
  guessesLeft : Nat
  deriving DecidableEq, Repr

/-- The initialisation of a round in `main` (lines 30 to 36). -/
def initState (word : List Char) : State :=
  { word := word
    guessedWord := List.replicate word.length '_'
    misses := []
    guessesLeft := sizeDouble word.length }

/-- The body of the game loop in `main` once the guess is read (lines 45 to 53). -/
def applyGuess (s : State) (guess : Char) : State :=
  if isGuessInWord guess s.word then
    { s with guessedWord := compareGuessToWord guess s.word s.guessedWord }
  else
    { s with misses := addMissedGuess guess s.misses, guessesLeft := sizeDec s.guessesLeft }

/-- The `do ... while(!isGameOver(...))` loop of `main` over the guesses that
`makeGuess` returns one after the other.  The result is the state in which the
loop ends, or the state in which it waits for a guess that never comes. -/
def gameLoop (s : State) : List Char → State
  | [] => s
  | guess :: rest =>
    let s1 := applyGuess s guess
    if isGameOver s1.guessedWord s1.guessesLeft then s1 else gameLoop s1 rest

/-- The guesses that the loop of `main` reads and applies before it ends. -/
def appliedGuesses (s : State) : List Char → List Char
  | [] => []
  | guess :: rest =>
    let s1 := applyGuess s guess
    if isGameOver s1.guessedWord s1.guessesLeft then [guess]
    else guess :: appliedGuesses s1 rest

/-! ## Reading from `std::cin` -/

/-- The whitespace skipping that `operator>>` does before it extracts. -/
def skipWhitespace (cin : List Char) : List Char := cin.dropWhile isspace

/-- Source `clearBuffer` (and the tail of `inputError`): clear the error flags
and ignore the input up to and including the next newline. -/
def clearBuffer (cin : List Char) : List Char := (cin.dropWhile (fun c => c != '\n')).drop 1

/-- The word test of `askForSecretWord` (lines 81 to 86): the condition under
which the word is refused and asked for again. -/
def wordRefused (word : List Char) : Bool :=
  decide (word.length ≤ 1) || word.any (fun letter => !isalpha letter)

/-- The `while(true)` loop of `askForSecretWord`, one iteration per unit of
fuel: `std::cin >> word` skips whitespace and extracts the characters up to the
next whitespace; a refused word discards the rest of its line and the word is
asked for again; an accepted word is returned in upper case together with the
input that follows it.  At the end of the input the extraction fails with an
empty word for ever, so the loop never returns: `none`. -/
def askLoop : Nat → List Char → Option (List Char × List Char)
  | 0, _ => none
  | fuel + 1, cin =>
    match skipWhitespace cin with
    | [] => none
    | c :: cs =>
      let word := (c :: cs).takeWhile (fun x => !isspace x)
      let rest := (c :: cs).dropWhile (fun x => !isspace x)
      if wordRefused word then askLoop fuel (clearBuffer rest)
      else some (word.map toupper, rest)

/-- Source `askForSecretWord`.  Every iteration that does not end the loop
consumes a character, so one unit of fuel per unread character is enough
(`askLoop_fuel`). -/
def askForSecretWord (cin : List Char) : Option (List Char × List Char) :=
  askLoop cin.length cin

/-- The `while(true)` loop of `makeGuess` in `src/main.cpp`, one iteration per
unit of fuel: `std::cin >> guess` skips whitespace and extracts one character;
when that fails or the character is not a letter the rest of the line is
discarded and the guess is asked for again; otherwise the rest of the line is
discarded and the letter is returned in upper case. -/
def guessLoop : Nat → List Char → Option (Char × List Char)
  | 0, _ => none
  | fuel + 1, cin =>
    match skipWhitespace cin with
    | [] => none
    | guess :: rest =>
      if !isalpha guess then guessLoop fuel (clearBuffer rest)
      else some (toupper guess, clearBuffer rest)

/-- Source `makeGuess` of `src/main.cpp`, with one unit of fuel per unread
character (`guessLoop_fuel`). -/
def makeGuess (cin : List Char) : Option (Char × List Char) :=
  guessLoop cin.length cin

/-- One iteration of the game loop of `main` on the unread input (lines 42 to
53): read a guess with `makeGuess`, then apply it. -/
def playTurn (s : State) (cin : List Char) : Option (State × List Char) :=
  match makeGuess cin with
  | none => none
  | some (guess, rest) => some (applyGuess s guess, rest)

/-! ## The derived outcome of the specification -/

/-- The three outcomes of the specification's `GameOutcome`. -/
inductive GameOutcome where
  | InProgress
  | Won
  | Lost
  deriving DecidableEq, Repr

/-- The outcome in the words of the specification (section 3): Won when the
revealed word contains no placeholder, Lost when the remaining attempts are `0`
and the word is incomplete, InProgress otherwise.  The program has no such
function; it is compared with `isGameOver`. -/
def specOutcome (revealed : List Char) (remaining : Nat) : GameOutcome :=
  if '_' ∉ revealed then GameOutcome.Won
  else if remaining = 0 then GameOutcome.Lost
  else GameOutcome.InProgress

/-! ## The argument-driven variant, `main.cpp` -/

namespace ArgDriven

/-- The `while(true)` loop of `makeGuess` in `main.cpp`: as in the interactive
variant, except that an accepted letter leaves the rest of its line unread. -/
def guessLoop : Nat → List Char → Option (Char × List Char)
  | 0, _ => none
  | fuel + 1, cin =>
    match skipWhitespace cin with
    | [] => none
    | guess :: rest =>
      if !isalpha guess then guessLoop fuel (clearBuffer rest)
      else some (toupper guess, rest)

/-- Source `makeGuess` of `main.cpp`, with one unit of fuel per unread character. -/
def makeGuess (cin : List Char) : Option (Char × List Char) :=
  guessLoop cin.length cin

/-- Source `isGuessInWord` of `main.cpp`: `std::any_of` over the word with
`std::toupper(letter) == guess`. -/
def isGuessInWord (guess : Char) (word : List Char) : Bool :=
  word.any (fun letter => toupper letter == guess)

/-- The body of the loop of `compareGuessToWord` of `main.cpp` at index `i`:
`if(guess == std::toupper(word[i])) guessedWord[i] = guess;`. -/
def compareAt (guess : Char) (word guessedWord : List Char) (i : Nat) : List Char :=
  if (word[i]?).map toupper = some guess then guessedWord.set i guess else guessedWord

/-- Source `compareGuessToWord` of `main.cpp`: the loop over `i` from `0` to
`word.length()`. -/
def compareGuessToWord (guess : Char) (word guessedWord : List Char) : List Char :=
  (List.range word.length).foldl (compareAt guess word) guessedWord

/-- Source `addMissedGuess` of `main.cpp`. -/
def addMissedGuess (guess : Char) (misses : List Char) : List Char :=
  if misses.isEmpty then misses ++ [guess]
  else if misses.any (fun miss => guess == miss) then misses
  else misses ++ [guess]

/-- Source `isGameOver` of `main.cpp`. -/
def isGameOver (guessedWord : List Char) (guessesLeft : Nat) : Bool :=
  !guessedWord.any (fun letter => letter == '_') || guessesLeft == 0

/-- The initialisation of the round in `main` of `main.cpp` (lines 33 to 42):
the word is `argv[1]` as it is given. -/
def initState (word : List Char) : State :=
  { word := word
    guessedWord := List.replicate word.length '_'
    misses := []
    guessesLeft := sizeDouble word.length }

/-- The body of the game loop of `main.cpp` once the guess is read (lines 53 to 61). -/
def applyGuess (s : State) (guess : Char) : State :=
  if isGuessInWord guess s.word then
    { s with guessedWord := compareGuessToWord guess s.word s.guessedWord }
  else
    { s with misses := addMissedGuess guess s.misses, guessesLeft := sizeDec s.guessesLeft }

/-- The `do ... while(!isGameOver(...))` loop of `main.cpp` over the guesses that
`makeGuess` returns. -/
def gameLoop (s : State) : List Char → State
  | [] => s
  | guess :: rest =>
    let s1 := applyGuess s guess
    if isGameOver s1.guessedWord s1.guessesLeft then s1 else gameLoop s1 rest

/-- How `main` of `main.cpp` goes: it returns `EXIT_FAILURE` before the round,
or it plays the round. -/
inductive MainRun where
  | exitFailure
  | round (final : State)
  deriving DecidableEq, Repr

/-- Source `main` of `main.cpp` on the arguments `argv` (the program name
first, so `argc` is `argv.length`) and the guesses that `makeGuess` returns:
without a second argument it fails, otherwise the round on `argv[1]` is played. -/
def main (argv : List (List Char)) (guesses : List Char) : MainRun :=
  if argv.length < 2 then MainRun.exitFailure
  else MainRun.round (gameLoop (initState (argv.getD 1 [])) guesses)

/-- A state of the argument-driven variant seen as a state of the interactive
variant: the word in upper case, as `askForSecretWord` stores it. -/
def storedForm (s : State) : State := { s with word := s.word.map toupper }

end ArgDriven

/-! ## What a round has seen so far -/

/-- The guessed word that the guesses `history` should have revealed on `word`:
the letter where it was guessed, the placeholder elsewhere. -/
def revealedBy (word history : List Char) : List Char :=
  word.map (fun c => if c ∈ history then c else '_')

/-- The number of guesses of `history` that are not in `word`, repeats included. -/
def wrongCount (word history : List Char) : Nat :=
  (history.filter (fun guess => !isGuessInWord guess word)).length

/-- The state of a round on `word` after the guesses `history`, as far as the
word, the guessed word and the miss list go. -/
def RoundInv (word history : List Char) (s : State) : Prop :=
  s.word = word ∧ s.guessedWord = revealedBy word history ∧ s.misses.Nodup ∧
    ∀ c, c ∈ s.misses ↔ c ∈ history ∧ c ∉ word

/-- The states that the loop of `main` reaches in a round on `word`, with the
guesses applied so far: the initial state, and the loop body applied to a
guess, which the `do ... while` loop does for the first guess and then as long
as `isGameOver` is false. -/
inductive Reachable (word : List Char) : List Char → State → Prop where
  | start : Reachable word [] (initState word)
  | turn (history : List Char) (s : State) (guess : Char) :
      Reachable word history s →
      (history = [] ∨ isGameOver s.guessedWord s.guessesLeft = false) →
      Reachable word (history ++ [guess]) (applyGuess s guess)

/-! ## Characters -/

theorem isalpha_iff (c : Char) :
    isalpha c = true ↔ (65 ≤ c.toNat ∧ c.toNat ≤ 90) ∨ (97 ≤ c.toNat ∧ c.toNat ≤ 122) := by
  simp only [isalpha, Char.isAlpha, Char.isUpper, Char.isLower, Bool.or_eq_true,
    Bool.and_eq_true, decide_eq_true_eq, ge_iff_le, UInt32.le_def, Char.toNat]
  rfl

theorem isUpper_iff (c : Char) : c.isUpper = true ↔ 65 ≤ c.toNat ∧ c.toNat ≤ 90 := by
  simp only [Char.isUpper, Bool.and_eq_true, decide_eq_true_eq, ge_iff_le, UInt32.le_def,
    Char.toNat]
  rfl

theorem toupper_lower (c : Char) (h : 97 ≤ c.toNat ∧ c.toNat ≤ 122) :
    (toupper c).toNat = c.toNat - 32 := by
  obtain ⟨h1, h2⟩ := h
  have hc : c = Char.ofNat c.toNat := (Char.ofNat_toNat c).symm
  generalize c.toNat = n at hc h1 h2
  subst hc
  interval_cases n <;> decide

theorem toupper_other (c : Char) (h : ¬ (97 ≤ c.toNat ∧ c.toNat ≤ 122)) : toupper c = c := by
  simp only [toupper, Char.toUpper, ge_iff_le]
  rw [if_neg h]

theorem toupper_upper (c : Char) (h : isalpha c = true) : (toupper c).isUpper = true := by
  rw [isUpper_iff]
  rw [isalpha_iff] at h
  by_cases hl : 97 ≤ c.toNat ∧ c.toNat ≤ 122
  · rw [toupper_lower c hl]; omega
  · rw [toupper_other c hl]; omega

theorem toupper_idem (c : Char) : toupper (toupper c) = toupper c := by
  by_cases hl : 97 ≤ c.toNat ∧ c.toNat ≤ 122
  · apply toupper_other
    rw [toupper_lower c hl]; omega
  · rw [toupper_other c hl, toupper_other c hl]

theorem isUpper_ne_underscore (c : Char) (h : c.isUpper = true) : c ≠ '_' := by
  intro e
  subst e
  exact absurd h (by decide)
theorem isspace_of_isalpha (c : Char) (h : isalpha c = true) : isspace c = false := by
  cases hs : isspace c with
  | false => rfl
  | true =>
    exfalso
    simp only [isspace, Bool.or_eq_true, beq_iff_eq] at hs
    rcases hs with ((((rfl | rfl) | rfl) | rfl) | rfl) | rfl <;> exact absurd h (by decide)

/-! ## The reveal loop -/

theorem compareAt_length (guess : Char) (word gw : List Char) (i : Nat) :
    (compareAt guess word gw i).length = gw.length := by
  unfold compareAt
  split <;> simp

theorem compareAt_getElem? (guess : Char) (word gw : List Char) (i j : Nat) :
    (compareAt guess word gw i)[j]?
      = if j = i ∧ word[j]? = some guess ∧ j < gw.length then some guess else gw[j]? := by
  unfold compareAt
  by_cases h : word[i]? = some guess
  · rw [if_pos h, List.getElem?_set]
    by_cases hij : i = j
    · subst hij
      by_cases hlt : i < gw.length
      · simp [h, hlt]
      · have hnone : gw[i]? = none := List.getElem?_eq_none (Nat.le_of_not_lt hlt)
        simp [hlt, hnone]
    · have hji : ¬ j = i := fun e => hij e.symm
      simp [hij, hji]
  · rw [if_neg h]
    by_cases hji : j = i
    · subst hji
      simp [h]
    · simp [hji]

theorem compareLoop_length (guess : Char) (word : List Char) (n : Nat) (gw : List Char) :
    ((List.range n).foldl (compareAt guess word) gw).length = gw.length := by
  induction n with
  | zero => simp
  | succ n ih =>
    rw [List.range_succ, List.foldl_append]
    simp only [List.foldl_cons, List.foldl_nil, compareAt_length, ih]

theorem compareLoop_getElem? (guess : Char) (word : List Char) (n : Nat) (gw : List Char)
    (j : Nat) :
    ((List.range n).foldl (compareAt guess word) gw)[j]?
      = if j < n ∧ word[j]? = some guess ∧ j < gw.length then some guess else gw[j]? := by
  induction n with
  | zero => simp
  | succ n ih =>
    rw [List.range_succ, List.foldl_append]
    simp only [List.foldl_cons, List.foldl_nil, compareAt_getElem?, compareLoop_length, ih]
    by_cases hjn : j = n
    · subst hjn
      simp
    · by_cases hlt : j < n
      · have : j < n + 1 := by omega
        simp [hjn, hlt, this]
      · have : ¬ j < n + 1 := by omega
        simp [hjn, hlt, this]

theorem compareGuessToWord_length (guess : Char) (word gw : List Char) :
    (compareGuessToWord guess word gw).length = gw.length :=
  compareLoop_length guess word word.length gw

theorem compareGuessToWord_getElem? (guess : Char) (word gw : List Char) (j : Nat) :
    (compareGuessToWord guess word gw)[j]?
      = if word[j]? = some guess ∧ j < gw.length then some guess else gw[j]? := by
  unfold compareGuessToWord
  rw [compareLoop_getElem?]
  by_cases h : word[j]? = some guess
  · have : j < word.length := by
      by_contra hc
      rw [List.getElem?_eq_none (by omega)] at h
      exact Option.noConfusion h
    simp [h, this]
  · simp [h]
/-! ## Arithmetic on `size_t`, the word test and the miss list -/

theorem sizeDouble_eq (n : Nat) (h : n < 2 ^ 63) : sizeDouble n = 2 * n := by
  unfold sizeDouble sizeMod
  rw [Nat.mod_eq_of_lt (by omega)]
  omega

theorem sizeDec_succ (n : Nat) (h1 : 1 ≤ n) (h2 : n < sizeMod) : sizeDec n + 1 = n := by
  unfold sizeDec
  unfold sizeMod at *
  have : n + 2 ^ 64 - 1 = (n - 1) + 2 ^ 64 := by omega
  rw [this, Nat.add_mod_right, Nat.mod_eq_of_lt (by omega)]
  omega

theorem sizeDec_lt (n : Nat) : sizeDec n < sizeMod := by
  unfold sizeDec
  exact Nat.mod_lt _ (by unfold sizeMod; omega)

theorem wordRefused_eq_false (W : List Char) :
    wordRefused W = false ↔ 2 ≤ W.length ∧ ∀ c ∈ W, isalpha c = true := by
  unfold wordRefused
  simp only [Bool.or_eq_false_iff, decide_eq_false_iff_not, List.any_eq_false,
    Bool.not_eq_true', Bool.not_eq_false]
  constructor
  · rintro ⟨h1, h2⟩
    exact ⟨by omega, h2⟩
  · rintro ⟨h1, h2⟩
    exact ⟨by omega, h2⟩

theorem isGuessInWord_iff (guess : Char) (word : List Char) :
    isGuessInWord guess word = true ↔ guess ∈ word := by
  unfold isGuessInWord
  simp only [List.any_eq_true, beq_iff_eq]
  constructor
  · rintro ⟨x, hx, rfl⟩
    exact hx
  · intro h
    exact ⟨guess, h, rfl⟩

theorem mem_addMissedGuess (guess c : Char) (misses : List Char) :
    c ∈ addMissedGuess guess misses ↔ c = guess ∨ c ∈ misses := by
  unfold addMissedGuess
  by_cases he : misses.isEmpty = true
  · rw [if_pos he]
    simp [or_comm]
  · rw [if_neg he]
    by_cases ha : misses.any (fun miss => guess == miss) = true
    · rw [if_pos ha]
      simp only [List.any_eq_true, beq_iff_eq] at ha
      obtain ⟨x, hx, rfl⟩ := ha
      constructor
      · exact Or.inr
      · rintro (rfl | h)
        · exact hx
        · exact h
    · rw [if_neg ha]
      simp [or_comm]

theorem nodup_addMissedGuess (guess : Char) (misses : List Char) (h : misses.Nodup) :
    (addMissedGuess guess misses).Nodup := by
  unfold addMissedGuess
  by_cases he : misses.isEmpty = true
  · rw [if_pos he]
    rw [List.isEmpty_iff] at he
    subst he
    simp
  · rw [if_neg he]
    by_cases ha : misses.any (fun miss => guess == miss) = true
    · rw [if_pos ha]
      exact h
    · rw [if_neg ha]
      simp only [List.any_eq_true, beq_iff_eq, not_exists, not_and] at ha
      rw [List.nodup_append]
      refine ⟨h, List.nodup_singleton _, ?_⟩
      intro a ha1 ha2
      rw [List.mem_singleton] at ha2
      subst ha2
      exact ha a ha1 rfl

theorem addMissedGuess_of_mem (guess : Char) (misses : List Char) (h : guess ∈ misses) :
    addMissedGuess guess misses = misses := by
  unfold addMissedGuess
  have hne : ¬ misses.isEmpty = true := by
    rw [List.isEmpty_iff]
    exact List.ne_nil_of_mem h
  have hany : misses.any (fun miss => guess == miss) = true := by
    simp only [List.any_eq_true, beq_iff_eq]
    exact ⟨guess, h, rfl⟩
  rw [if_neg hne, if_pos hany]

theorem applyGuess_of_not_mem (s : State) (guess : Char) (h : guess ∉ s.word) :
    applyGuess s guess =
      { s with misses := addMissedGuess guess s.misses, guessesLeft := sizeDec s.guessesLeft } := by
  have hin : ¬ isGuessInWord guess s.word = true := fun hc => h ((isGuessInWord_iff _ _).1 hc)
  unfold applyGuess
  rw [if_neg hin]

theorem applyGuess_of_mem (s : State) (guess : Char) (h : guess ∈ s.word) :
    applyGuess s guess =
      { s with guessedWord := compareGuessToWord guess s.word s.guessedWord } := by
  have hin : isGuessInWord guess s.word = true := (isGuessInWord_iff _ _).2 h
  unfold applyGuess
  rw [if_pos hin]

theorem isGameOver_eq_true (g : List Char) (n : Nat) :
    isGameOver g n = true ↔ '_' ∉ g ∨ n = 0 := by
  unfold isGameOver
  simp only [Bool.or_eq_true, Bool.not_eq_true', List.any_eq_false, beq_iff_eq, beq_iff_eq]
  constructor
  · rintro (h | h)
    · left
      intro hm
      exact h _ hm rfl
    · right
      exact h
  · rintro (h | h)
    · left
      intro x hx e
      subst e
      exact h hx
    · right
      exact h

/-! ## The input loops: fuel -/

theorem clearBuffer_length_le (cin : List Char) : (clearBuffer cin).length ≤ cin.length := by
  unfold clearBuffer
  rw [List.length_drop]
  exact le_trans (Nat.sub_le _ _) (List.dropWhile_sublist _).length_le

theorem clearBuffer_length_lt (cin : List Char) (h : cin ≠ []) :
    (clearBuffer cin).length < cin.length := by
  unfold clearBuffer
  rw [List.length_drop]
  have hle : (cin.dropWhile (fun c => c != '\n')).length ≤ cin.length :=
    (List.dropWhile_sublist _).length_le
  have hpos : 0 < cin.length := List.length_pos.2 h
  omega

theorem skipWhitespace_length_le (cin : List Char) :
    (skipWhitespace cin).length ≤ cin.length := by
  unfold skipWhitespace
  exact (List.dropWhile_sublist _).length_le

/-- What is left after a refused word and the rest of its line is shorter than
the input the word was read from. -/
theorem refused_rest_length_lt (cin : List Char) (c : Char) (cs : List Char)
    (h : skipWhitespace cin = c :: cs) :
    (clearBuffer ((c :: cs).dropWhile (fun x => !isspace x))).length < cin.length := by
  have h1 : (c :: cs).length ≤ cin.length := by
    rw [← h]
    exact skipWhitespace_length_le cin
  have h2 : ((c :: cs).dropWhile (fun x => !isspace x)).length ≤ (c :: cs).length :=
    (List.dropWhile_sublist _).length_le
  by_cases he : (c :: cs).dropWhile (fun x => !isspace x) = []
  · rw [he]
    simp only [clearBuffer, List.dropWhile_nil, List.drop_nil, List.length_nil]
    simp only [List.length_cons] at h1
    omega
  · have := clearBuffer_length_lt _ he
    omega

theorem askLoop_fuel (n m : Nat) (cin : List Char) (hn : cin.length ≤ n) (hm : cin.length ≤ m) :
    askLoop n cin = askLoop m cin := by
  induction n generalizing m cin with
  | zero =>
    have hnil : cin = [] := List.length_eq_zero.1 (Nat.le_zero.1 hn)
    subst hnil
    cases m with
    | zero => rfl
    | succ m => simp [askLoop, skipWhitespace]
  | succ n ih =>
    cases m with
    | zero =>
      have hnil : cin = [] := List.length_eq_zero.1 (Nat.le_zero.1 hm)
      subst hnil
      simp [askLoop, skipWhitespace]
    | succ m =>
      simp only [askLoop]
      cases hs : skipWhitespace cin with
      | nil => rfl
      | cons c cs =>
        simp only
        have hlt := refused_rest_length_lt cin c cs hs
        rw [ih m _ (by omega) (by omega)]

/-- One iteration of `askForSecretWord` on an input that still holds a word. -/
theorem askForSecretWord_cons (cin : List Char) (c : Char) (cs : List Char)
    (h : skipWhitespace cin = c :: cs) :
    askForSecretWord cin =
      if wordRefused ((c :: cs).takeWhile (fun x => !isspace x)) then
        askForSecretWord (clearBuffer ((c :: cs).dropWhile (fun x => !isspace x)))
      else some (((c :: cs).takeWhile (fun x => !isspace x)).map toupper,
        (c :: cs).dropWhile (fun x => !isspace x)) := by
  have hpos : 0 < cin.length := by
    have := skipWhitespace_length_le cin
    rw [h] at this
    simp only [List.length_cons] at this
    omega
  unfold askForSecretWord
  obtain ⟨k, hk⟩ : ∃ k, cin.length = k + 1 := ⟨cin.length - 1, by omega⟩
  rw [hk]
  simp only [askLoop, h]
  have hlt := refused_rest_length_lt cin c cs h
  rw [askLoop_fuel k _ _ (by omega) (le_refl _)]

theorem guessLoop_fuel (n m : Nat) (cin : List Char) (hn : cin.length ≤ n)
    (hm : cin.length ≤ m) : guessLoop n cin = guessLoop m cin := by
  induction n generalizing m cin with
  | zero =>
    have hnil : cin = [] := List.length_eq_zero.1 (Nat.le_zero.1 hn)
    subst hnil
    cases m with
    | zero => rfl
    | succ m => simp [guessLoop, skipWhitespace]
  | succ n ih =>
    cases m with
    | zero =>
      have hnil : cin = [] := List.length_eq_zero.1 (Nat.le_zero.1 hm)
      subst hnil
      simp [guessLoop, skipWhitespace]
    | succ m =>
      simp only [guessLoop]
      cases hs : skipWhitespace cin with
      | nil => rfl
      | cons c cs =>
        simp only
        have h1 : (c :: cs).length ≤ cin.length := by
          rw [← hs]
          exact skipWhitespace_length_le cin
        have h2 := clearBuffer_length_le cs
        simp only [List.length_cons] at h1
        rw [ih m _ (by omega) (by omega)]

/-- One iteration of `makeGuess` on an input that still holds a character. -/
theorem makeGuess_cons (cin : List Char) (c : Char) (cs : List Char)
    (h : skipWhitespace cin = c :: cs) :
    makeGuess cin =
      if !isalpha c then makeGuess (clearBuffer cs) else some (toupper c, clearBuffer cs) := by
  have h1 : (c :: cs).length ≤ cin.length := by
    rw [← h]
    exact skipWhitespace_length_le cin
  simp only [List.length_cons] at h1
  have h2 := clearBuffer_length_le cs
  unfold makeGuess
  obtain ⟨k, hk⟩ : ∃ k, cin.length = k + 1 := ⟨cin.length - 1, by omega⟩
  rw [hk]
  simp only [guessLoop, h]
  rw [guessLoop_fuel k _ _ (by omega) (le_refl _)]

/-! ## The input loops on one line of input -/

theorem clearBuffer_line (tail rest : List Char) (h : ∀ c ∈ tail, c ≠ '\n') :
    clearBuffer (tail ++ '\n' :: rest) = rest := by
  unfold clearBuffer
  rw [List.dropWhile_append_of_pos (by simpa using h)]
  simp

theorem skipWhitespace_cons (c : Char) (cs : List Char) (h : isspace c = false) :
    skipWhitespace (c :: cs) = c :: cs := by
  unfold skipWhitespace
  rw [List.dropWhile_cons_of_neg (by simp [h])]

/-- A line that holds exactly the candidate word `W`: the word is refused and
the next line is read, or it is returned in upper case. -/
theorem askForSecretWord_line (W rest : List Char) (hne : W ≠ [])
    (hW : ∀ c ∈ W, isspace c = false) :
    askForSecretWord (W ++ '\n' :: rest) =
      if wordRefused W then askForSecretWord rest
      else some (W.map toupper, '\n' :: rest) := by
  obtain ⟨c, cs, rfl⟩ := List.exists_cons_of_ne_nil hne
  have hs : skipWhitespace ((c :: cs) ++ '\n' :: rest) = c :: (cs ++ '\n' :: rest) := by
    rw [List.cons_append]
    exact skipWhitespace_cons c _ (hW c (List.mem_cons_self c cs))
  rw [askForSecretWord_cons _ c _ hs]
  have hn : isspace '\n' = true := by decide
  have htake : (c :: (cs ++ '\n' :: rest)).takeWhile (fun x => !isspace x) = c :: cs := by
    rw [← List.cons_append, List.takeWhile_append_of_pos (by simpa using hW)]
    rw [List.takeWhile_cons_of_neg (by simp [hn])]
    simp
  have hdrop : (c :: (cs ++ '\n' :: rest)).dropWhile (fun x => !isspace x) = '\n' :: rest := by
    rw [← List.cons_append, List.dropWhile_append_of_pos (by simpa using hW)]
    rw [List.dropWhile_cons_of_neg (by simp [hn])]
  rw [htake, hdrop]
  have hclear : clearBuffer ('\n' :: rest) = rest := clearBuffer_line [] rest (by simp)
  rw [hclear]

/-! ## The game loop -/

/-- The loop of `main` is the loop body applied to the guesses it reads. -/
theorem gameLoop_eq_foldl (s : State) (guesses : List Char) :
    gameLoop s guesses = (appliedGuesses s guesses).foldl applyGuess s := by
  induction guesses generalizing s with
  | nil => rfl
  | cons g rest ih =>
    simp only [gameLoop, appliedGuesses]
    split
    · rfl
    · rw [ih]
      rfl

/-- The guesses that the loop reads are the first ones of the input. -/
theorem appliedGuesses_initial (s : State) (guesses : List Char) :
    ∃ unread, guesses = appliedGuesses s guesses ++ unread := by
  induction guesses generalizing s with
  | nil => exact ⟨[], rfl⟩
  | cons g rest ih =>
    simp only [appliedGuesses]
    split
    · exact ⟨rest, rfl⟩
    · obtain ⟨u, hu⟩ := ih (applyGuess s g)
      exact ⟨u, by rw [List.cons_append, ← hu]⟩

/-- The loop stops because the game is over, or it has read all the guesses. -/
theorem gameLoop_over_or_all (s : State) (guesses : List Char) :
    isGameOver (gameLoop s guesses).guessedWord (gameLoop s guesses).guessesLeft = true ∨
      appliedGuesses s guesses = guesses := by
  induction guesses generalizing s with
  | nil => exact Or.inr rfl
  | cons g rest ih =>
    simp only [gameLoop, appliedGuesses]
    by_cases h : isGameOver (applyGuess s g).guessedWord (applyGuess s g).guessesLeft = true
    · rw [if_pos h]
      exact Or.inl h
    · rw [if_neg h, if_neg h]
      rcases ih (applyGuess s g) with h1 | h1
      · exact Or.inl h1
      · exact Or.inr (by rw [h1])

/-- A property of the history and the state that holds at the start of the
round and that the loop body keeps, where the loop applies it (to the first
guess, and to every guess read while the game is not over), holds when the
loop stops. -/
theorem gameLoop_invariant (P : List Char → State → Prop)
    (hstep : ∀ h s g, P h s → (h = [] ∨ isGameOver s.guessedWord s.guessesLeft = false) →
      P (h ++ [g]) (applyGuess s g))
    (guesses : List Char) :
    ∀ (h : List Char) (s : State), P h s →
      (h = [] ∨ isGameOver s.guessedWord s.guessesLeft = false) →
      P (h ++ appliedGuesses s guesses) (gameLoop s guesses) := by
  induction guesses with
  | nil =>
    intro h s hP _
    simpa [gameLoop, appliedGuesses] using hP
  | cons g rest ih =>
    intro h s hP hguard
    have h1 := hstep h s g hP hguard
    simp only [gameLoop, appliedGuesses]
    by_cases hover : isGameOver (applyGuess s g).guessedWord (applyGuess s g).guessesLeft = true
    · rw [if_pos hover, if_pos hover]
      exact h1
    · rw [if_neg hover, if_neg hover]
      have := ih (h ++ [g]) (applyGuess s g) h1 (Or.inr (by simpa using hover))
      simpa using this

/-! ## The invariant of a round -/

theorem revealedBy_nil (word : List Char) :
    revealedBy word [] = List.replicate word.length '_' := by
  unfold revealedBy
  induction word with
  | nil => rfl
  | cons c cs ih => simp [List.replicate_succ, ih]

theorem revealedBy_getElem? (word history : List Char) (i : Nat) :
    (revealedBy word history)[i]? = (word[i]?).map (fun c => if c ∈ history then c else '_') := by
  unfold revealedBy
  exact List.getElem?_map _ _ _

theorem compareGuessToWord_revealedBy (guess : Char) (word history : List Char) :
    compareGuessToWord guess word (revealedBy word history)
      = revealedBy word (history ++ [guess]) := by
  apply List.ext_getElem?
  intro i
  rw [compareGuessToWord_getElem?, revealedBy_getElem?, revealedBy_getElem?]
  cases hw : word[i]? with
  | none => simp
  | some c =>
    have hi : i < (revealedBy word history).length := by
      unfold revealedBy
      rw [List.length_map]
      by_contra hge
      rw [List.getElem?_eq_none (Nat.le_of_not_lt hge)] at hw
      exact Option.noConfusion hw
    by_cases hc : c = guess
    · subst hc
      simp [hi]
    · have hne : ¬ (some c = some guess) := fun e => hc (Option.some.inj e)
      simp only [Option.map_some', List.mem_append, List.mem_singleton, hc, or_false]
      rw [if_neg (fun h => hne h.1)]

theorem revealedBy_of_not_mem (guess : Char) (word history : List Char) (h : guess ∉ word) :
    revealedBy word (history ++ [guess]) = revealedBy word history := by
  unfold revealedBy
  apply List.map_congr_left
  intro c hc
  have hne : c ≠ guess := fun e => h (e ▸ hc)
  simp [hne]

theorem roundInv_init (word : List Char) : RoundInv word [] (initState word) := by
  refine ⟨rfl, ?_, List.nodup_nil, ?_⟩
  · rw [revealedBy_nil]
    rfl
  · intro c
    simp [initState]

theorem roundInv_step (word history : List Char) (s : State) (guess : Char)
    (h : RoundInv word history s) : RoundInv word (history ++ [guess]) (applyGuess s guess) := by
  obtain ⟨hw, hg, hnd, hm⟩ := h
  unfold applyGuess
  by_cases hin : isGuessInWord guess s.word = true
  · rw [if_pos hin]
    have hmem : guess ∈ word := by
      rw [← hw]
      exact (isGuessInWord_iff _ _).1 hin
    refine ⟨hw, ?_, hnd, ?_⟩
    · show compareGuessToWord guess s.word s.guessedWord = _
      rw [hw, hg, compareGuessToWord_revealedBy]
    · intro c
      show c ∈ s.misses ↔ _
      rw [hm c]
      constructor
      · rintro ⟨h1, h2⟩
        exact ⟨List.mem_append_left _ h1, h2⟩
      · rintro ⟨h1, h2⟩
        rcases List.mem_append.1 h1 with h3 | h3
        · exact ⟨h3, h2⟩
        · rw [List.mem_singleton] at h3
          subst h3
          exact absurd hmem h2
  · rw [if_neg hin]
    have hmem : guess ∉ word := by
      rw [← hw]
      exact fun hc => hin ((isGuessInWord_iff _ _).2 hc)
    refine ⟨hw, ?_, nodup_addMissedGuess _ _ hnd, ?_⟩
    · show s.guessedWord = _
      rw [hg, revealedBy_of_not_mem guess word history hmem]
    · intro c
      show c ∈ addMissedGuess guess s.misses ↔ _
      rw [mem_addMissedGuess, hm c]
      constructor
      · rintro (rfl | ⟨h1, h2⟩)
        · exact ⟨List.mem_append_right _ (List.mem_singleton_self _), hmem⟩
        · exact ⟨List.mem_append_left _ h1, h2⟩
      · rintro ⟨h1, h2⟩
        rcases List.mem_append.1 h1 with h3 | h3
        · exact Or.inr ⟨h3, h2⟩
        · exact Or.inl (List.mem_singleton.1 h3)

/-- Every state that the loop of `main` reaches on `word` is the one that the
guesses read so far describe. -/
theorem roundInv_gameLoop (word guesses : List Char) :
    RoundInv word (appliedGuesses (initState word) guesses)
      (gameLoop (initState word) guesses) := by
  have := gameLoop_invariant (RoundInv word)
    (fun h s g hP _ => roundInv_step word h s g hP) guesses [] (initState word)
    (roundInv_init word) (Or.inl rfl)
  simpa using this

theorem wrongCount_append (word h : List Char) (guess : Char) :
    wrongCount word (h ++ [guess])
      = wrongCount word h + if isGuessInWord guess word then 0 else 1 := by
  unfold wrongCount
  rw [List.filter_append, List.length_append]
  by_cases hin : isGuessInWord guess word = true
  · simp [hin]
  · simp [hin]

theorem wrongCount_le_append (word h unread : List Char) :
    wrongCount word h ≤ wrongCount word (h ++ unread) := by
  unfold wrongCount
  rw [List.filter_append, List.length_append]
  exact Nat.le_add_right _ _

theorem guessesLeft_ne_zero (g : List Char) (n : Nat) (h : isGameOver g n = false) : n ≠ 0 := by
  intro hn
  have := (isGameOver_eq_true g n).2 (Or.inr hn)
  rw [h] at this
  exact Bool.noConfusion this

/-- The counter of a round on a word of at least one character: in every state
that the loop reaches, the guesses left and the wrong guesses read so far add
up to twice the length of the word. -/
theorem counter_gameLoop (word guesses : List Char) (h1 : 1 ≤ word.length)
    (hlen : word.length < 2 ^ 63) :
    (gameLoop (initState word) guesses).guessesLeft
      + wrongCount word (appliedGuesses (initState word) guesses) = 2 * word.length := by
  have key := gameLoop_invariant
    (fun h s => s.word = word ∧ s.guessesLeft + wrongCount word h = 2 * word.length)
    (by
      intro h s g hP hguard
      obtain ⟨hw, hc⟩ := hP
      have hpos : 1 ≤ s.guessesLeft := by
        rcases hguard with rfl | hno
        · simp only [wrongCount, List.filter_nil, List.length_nil, Nat.add_zero] at hc
          omega
        · have := guessesLeft_ne_zero _ _ hno
          omega
      have hsize : s.guessesLeft < sizeMod := by
        unfold sizeMod
        omega
      rw [wrongCount_append]
      unfold applyGuess
      subst hw
      by_cases hin : isGuessInWord g s.word = true
      · rw [if_pos hin, if_pos hin]
        exact ⟨rfl, by simpa using hc⟩
      · rw [if_neg hin, if_neg hin]
        refine ⟨rfl, ?_⟩
        show sizeDec s.guessesLeft + (wrongCount s.word h + 1) = 2 * s.word.length
        have := sizeDec_succ _ hpos hsize
        omega)
    guesses [] (initState word)
    ⟨rfl, by
      show sizeDouble word.length + wrongCount word [] = 2 * word.length
      rw [sizeDouble_eq _ hlen]
      rfl⟩
    (Or.inl rfl)
  simpa using key.2

theorem revealedBy_of_all_mem (word history : List Char) (h : ∀ c ∈ word, c ∈ history) :
    revealedBy word history = word := by
  unfold revealedBy
  conv_rhs => rw [← List.map_id word]
  apply List.map_congr_left
  intro c hc
  simp [h c hc]

theorem all_mem_of_revealedBy (word history : List Char)
    (h : '_' ∉ revealedBy word history) : ∀ c ∈ word, c ∈ history := by
  intro c hc
  by_contra hn
  apply h
  unfold revealedBy
  rw [List.mem_map]
  exact ⟨c, hc, by simp [hn]⟩

/-- The states of `gameLoop` are reachable states. -/
theorem reachable_gameLoop (word guesses : List Char) :
    Reachable word (appliedGuesses (initState word) guesses)
      (gameLoop (initState word) guesses) := by
  have := gameLoop_invariant (Reachable word)
    (fun h s g hP hguard => Reachable.turn h s g hP hguard) guesses [] (initState word)
    Reachable.start (Or.inl rfl)
  simpa using this

theorem roundInv_of_reachable (word history : List Char) (s : State)
    (h : Reachable word history s) : RoundInv word history s := by
  induction h with
  | start => exact roundInv_init word
  | turn history s guess _ _ ih => exact roundInv_step word history s guess ih

theorem skipWhitespace_append (ws rest : List Char) (c : Char)
    (hws : ∀ x ∈ ws, isspace x = true) (hc : isspace c = false) :
    skipWhitespace (ws ++ c :: rest) = c :: rest := by
  unfold skipWhitespace
  rw [List.dropWhile_append_of_pos hws, List.dropWhile_cons_of_neg (by simp [hc])]

/-- A line of guess input in `src/main.cpp`: after blanks `ws`, the character
`c` and whatever follows it on the line. -/
theorem makeGuess_line (ws tail rest : List Char) (c : Char)
    (hws : ∀ x ∈ ws, isspace x = true) (hc : isspace c = false)
    (htail : ∀ x ∈ tail, x ≠ '\n') :
    makeGuess (ws ++ c :: (tail ++ '\n' :: rest)) =
      if isalpha c then some (toupper c, rest) else makeGuess rest := by
  rw [makeGuess_cons _ c _ (skipWhitespace_append ws _ c hws hc), clearBuffer_line tail rest htail]
  cases isalpha c <;> rfl

namespace ArgDriven

theorem argGuessLoop_fuel (n m : Nat) (cin : List Char) (hn : cin.length ≤ n)
    (hm : cin.length ≤ m) : guessLoop n cin = guessLoop m cin := by
  induction n generalizing m cin with
  | zero =>
    have hnil : cin = [] := List.length_eq_zero.1 (Nat.le_zero.1 hn)
    subst hnil
    cases m with
    | zero => rfl
    | succ m => simp [guessLoop, skipWhitespace]
  | succ n ih =>
    cases m with
    | zero =>
      have hnil : cin = [] := List.length_eq_zero.1 (Nat.le_zero.1 hm)
      subst hnil
      simp [guessLoop, skipWhitespace]
    | succ m =>
      simp only [guessLoop]
      cases hs : skipWhitespace cin with
      | nil => rfl
      | cons c cs =>
        simp only
        have h1 : (c :: cs).length ≤ cin.length := by
          rw [← hs]
          exact skipWhitespace_length_le cin
        have h2 := clearBuffer_length_le cs
        simp only [List.length_cons] at h1
        rw [ih m _ (by omega) (by omega)]

/-- One iteration of `makeGuess` of `main.cpp` on an input that still holds a
character. -/
theorem argMakeGuess_cons (cin : List Char) (c : Char) (cs : List Char)
    (h : skipWhitespace cin = c :: cs) :
    makeGuess cin =
      if !isalpha c then makeGuess (clearBuffer cs) else some (toupper c, cs) := by
  have h1 : (c :: cs).length ≤ cin.length := by
    rw [← h]
    exact skipWhitespace_length_le cin
  simp only [List.length_cons] at h1
  have h2 := clearBuffer_length_le cs
  unfold makeGuess
  obtain ⟨k, hk⟩ : ∃ k, cin.length = k + 1 := ⟨cin.length - 1, by omega⟩
  rw [hk]
  simp only [guessLoop, h]
  rw [argGuessLoop_fuel k _ _ (by omega) (le_refl _)]

/-- A line of guess input in `main.cpp`. -/
theorem argMakeGuess_line (ws tail rest : List Char) (c : Char)
    (hws : ∀ x ∈ ws, isspace x = true) (hc : isspace c = false)
    (htail : ∀ x ∈ tail, x ≠ '\n') :
    makeGuess (ws ++ c :: (tail ++ '\n' :: rest)) =
      if isalpha c then some (toupper c, tail ++ '\n' :: rest) else makeGuess rest := by
  rw [argMakeGuess_cons _ c _ (skipWhitespace_append ws _ c hws hc), clearBuffer_line tail rest htail]
  cases isalpha c <;> rfl

end ArgDriven

/-! ## After the end of a round -/

/-- Once the loop has stopped on a game that is over, the guesses that follow
are not read: the final state and the guesses applied stay what they were. -/
theorem gameLoop_append_of_over (s : State) (guesses more : List Char) (hne : guesses ≠ [])
    (hover : isGameOver (gameLoop s guesses).guessedWord (gameLoop s guesses).guessesLeft = true) :
    gameLoop s (guesses ++ more) = gameLoop s guesses ∧
      appliedGuesses s (guesses ++ more) = appliedGuesses s guesses := by
  induction guesses generalizing s with
  | nil => exact absurd rfl hne
  | cons g rest ih =>
    have hl : ∀ l : List Char, gameLoop s (g :: l) =
        if isGameOver (applyGuess s g).guessedWord (applyGuess s g).guessesLeft then applyGuess s g
        else gameLoop (applyGuess s g) l := fun _ => rfl
    have ha : ∀ l : List Char, appliedGuesses s (g :: l) =
        if isGameOver (applyGuess s g).guessedWord (applyGuess s g).guessesLeft then [g]
        else g :: appliedGuesses (applyGuess s g) l := fun _ => rfl
    rw [List.cons_append, hl, hl, ha, ha]
    rw [hl] at hover
    by_cases h1 : isGameOver (applyGuess s g).guessedWord (applyGuess s g).guessesLeft = true
    · exact ⟨by rw [if_pos h1, if_pos h1], by rw [if_pos h1, if_pos h1]⟩
    · rw [if_neg h1] at hover
      by_cases hrest : rest = []
      · subst hrest
        exact absurd hover h1
      · obtain ⟨e1, e2⟩ := ih (applyGuess s g) hrest hover
        exact ⟨by rw [if_neg h1, if_neg h1, e1], by rw [if_neg h1, if_neg h1, e2]⟩

theorem revealedBy_append_of_mem (guess : Char) (word history : List Char)
    (h : guess ∈ history) : revealedBy word (history ++ [guess]) = revealedBy word history := by
  unfold revealedBy
  apply List.map_congr_left
  intro c _
  by_cases hc : c = guess
  · subst hc
    simp [h]
  · simp [hc]

theorem compareGuessToWord_idem (guess : Char) (word gw : List Char) :
    compareGuessToWord guess word (compareGuessToWord guess word gw)
      = compareGuessToWord guess word gw := by
  apply List.ext_getElem?
  intro j
  rw [compareGuessToWord_getElem? guess word (compareGuessToWord guess word gw),
    compareGuessToWord_length, compareGuessToWord_getElem?]
  by_cases h : word[j]? = some guess ∧ j < gw.length
  · simp only [h, and_self, if_true]
  · simp only [h, if_false]

/-! ## The two variants -/

theorem arg_isGuessInWord_eq (guess : Char) (W : List Char) :
    ArgDriven.isGuessInWord guess W = isGuessInWord guess (W.map toupper) := by
  unfold ArgDriven.isGuessInWord isGuessInWord
  rw [List.any_map]
  rfl

theorem arg_compareAt_eq (guess : Char) (W : List Char) :
    ArgDriven.compareAt guess W = compareAt guess (W.map toupper) := by
  funext gw i
  unfold ArgDriven.compareAt compareAt
  rw [List.getElem?_map]

theorem arg_compareGuessToWord_eq (guess : Char) (W gw : List Char) :
    ArgDriven.compareGuessToWord guess W gw = compareGuessToWord guess (W.map toupper) gw := by
  unfold ArgDriven.compareGuessToWord compareGuessToWord
  rw [arg_compareAt_eq, List.length_map]

theorem arg_applyGuess_eq (s : State) (guess : Char) :
    ArgDriven.storedForm (ArgDriven.applyGuess s guess)
      = applyGuess (ArgDriven.storedForm s) guess := by
  unfold ArgDriven.applyGuess applyGuess ArgDriven.storedForm
  simp only [arg_isGuessInWord_eq, arg_compareGuessToWord_eq]
  split <;> rfl

theorem arg_gameLoop_eq (s : State) (guesses : List Char) :
    ArgDriven.storedForm (ArgDriven.gameLoop s guesses)
      = gameLoop (ArgDriven.storedForm s) guesses := by
  induction guesses generalizing s with
  | nil => rfl
  | cons g rest ih =>
    have hover : ArgDriven.isGameOver (ArgDriven.applyGuess s g).guessedWord
        (ArgDriven.applyGuess s g).guessesLeft
        = isGameOver (applyGuess (ArgDriven.storedForm s) g).guessedWord
          (applyGuess (ArgDriven.storedForm s) g).guessesLeft := by
      rw [← arg_applyGuess_eq]
      rfl
    simp only [ArgDriven.gameLoop, gameLoop]
    rw [hover]
    split
    · exact arg_applyGuess_eq s g
    · rw [ih, arg_applyGuess_eq]

/-! ## The counter over the reachable states -/

/-- In every state that a round on a word of at least one character reaches,
the guesses left and the wrong guesses applied so far add up to twice the
length of the word. -/
theorem counter_of_reachable (word history : List Char) (s : State)
    (h1 : 1 ≤ word.length) (hlen : word.length < 2 ^ 63) (hr : Reachable word history s) :
    s.word = word ∧ s.guessesLeft + wrongCount word history = 2 * word.length := by
  induction hr with
  | start =>
    refine ⟨rfl, ?_⟩
    show sizeDouble word.length + wrongCount word [] = 2 * word.length
    rw [sizeDouble_eq _ hlen]
    rfl
  | turn history s g _ hguard ih =>
    obtain ⟨hw, hc⟩ := ih
    have hpos : 1 ≤ s.guessesLeft := by
      rcases hguard with rfl | hno
      · simp only [wrongCount, List.filter_nil, List.length_nil, Nat.add_zero] at hc
        omega
      · have := guessesLeft_ne_zero _ _ hno
        omega
    have hsize : s.guessesLeft < sizeMod := by
      unfold sizeMod
      omega
    rw [wrongCount_append]
    by_cases hin : g ∈ word
    · have hb : isGuessInWord g word = true := (isGuessInWord_iff _ _).2 hin
      rw [applyGuess_of_mem s g (hw ▸ hin), if_pos hb]
      exact ⟨hw, by simpa using hc⟩
    · have hb : ¬ isGuessInWord g word = true := fun hc1 => hin ((isGuessInWord_iff _ _).1 hc1)
      rw [applyGuess_of_not_mem s g (hw ▸ hin), if_neg hb]
      refine ⟨hw, ?_⟩
      show sizeDec s.guessesLeft + (wrongCount word history + 1) = 2 * word.length
      have := sizeDec_succ _ hpos hsize
      omega

/-! ## The claims -/

/-- C1. For every secret word `W` that `askForSecretWord` accepts (at least two
characters, letters only; a `std::string` is shorter than `2 ^ 63`), the round
on its stored upper-case form starts with a guessed word of `W.length`
placeholders `'_'`, an empty miss list, `2 * W.length` guesses left, and the
game is not over. -/
theorem C1_round_start (W : List Char) (hW : wordRefused W = false) (hlen : W.length < 2 ^ 63) :
    (initState (W.map toupper)).guessedWord = List.replicate W.length '_' ∧
    (initState (W.map toupper)).misses = [] ∧
    (initState (W.map toupper)).guessesLeft = 2 * W.length ∧
    isGameOver (initState (W.map toupper)).guessedWord
      (initState (W.map toupper)).guessesLeft = false := by
  have h2 : 2 ≤ W.length := ((wordRefused_eq_false W).1 hW).1
  have hg : (initState (W.map toupper)).guessesLeft = 2 * W.length := by
    simp only [initState, List.length_map]
    exact sizeDouble_eq _ hlen
  refine ⟨by simp [initState], rfl, hg, ?_⟩
  rw [hg]
  cases hover : isGameOver (initState (W.map toupper)).guessedWord (2 * W.length) with
  | false => rfl
  | true =>
    exfalso
    rcases (isGameOver_eq_true _ _).1 hover with h | h
    · apply h
      rw [show (initState (W.map toupper)).guessedWord = List.replicate W.length '_' by
        simp [initState]]
      exact List.mem_replicate.2 ⟨by omega, rfl⟩
    · omega

/-- Witness of C1 on the word `cat`. -/
theorem C1_round_start_witness :
    (initState (['c', 'a', 't'].map toupper)).guessedWord = List.replicate 3 '_' ∧
    (initState (['c', 'a', 't'].map toupper)).misses = [] ∧
    (initState (['c', 'a', 't'].map toupper)).guessesLeft = 2 * 3 ∧
    isGameOver (initState (['c', 'a', 't'].map toupper)).guessedWord
      (initState (['c', 'a', 't'].map toupper)).guessesLeft = false :=
  C1_round_start ['c', 'a', 't'] (by decide) (by decide)

/-- C2. For every secret word `W`, every state of a round on its stored form
(the guessed word as long as the word) and every letter `L` that occurs in `W`
up to case, applying the guess `L` (in upper case, as `makeGuess` returns it)
puts the upper-case `L` at every index where `W` has `L` up to case, and
leaves the number of guesses left as it was. -/
theorem C2_correct_guess (W : List Char) (s : State) (L : Char)
    (hword : s.word = W.map toupper) (hlen : s.guessedWord.length = s.word.length)
    (hocc : ∃ c ∈ W, toupper c = toupper L) :
    (∀ (i : Nat) (c : Char), W[i]? = some c → toupper c = toupper L →
      (applyGuess s (toupper L)).guessedWord[i]? = some (toupper L)) ∧
    (applyGuess s (toupper L)).guessesLeft = s.guessesLeft := by
  have hin : isGuessInWord (toupper L) s.word = true := by
    rw [isGuessInWord_iff, hword, List.mem_map]
    obtain ⟨c, hc, hcL⟩ := hocc
    exact ⟨c, hc, hcL⟩
  unfold applyGuess
  rw [if_pos hin]
  refine ⟨?_, rfl⟩
  intro i c hi hc
  have hwi : s.word[i]? = some (toupper L) := by
    rw [hword, List.getElem?_map, hi, Option.map_some', hc]
  have hlt : i < s.guessedWord.length := by
    rw [hlen, hword, List.length_map]
    by_contra hge
    rw [List.getElem?_eq_none (Nat.le_of_not_lt hge)] at hi
    exact Option.noConfusion hi
  show (compareGuessToWord (toupper L) s.word s.guessedWord)[i]? = some (toupper L)
  rw [compareGuessToWord_getElem?, if_pos ⟨hwi, hlt⟩]

/-- Witness of C2: the guess `a` on the word `Banana` after one wrong guess. -/
theorem C2_correct_guess_witness :
    (∀ (i : Nat) (c : Char), ['B', 'a', 'n', 'a', 'n', 'a'][i]? = some c → toupper c = toupper 'a' →
      (applyGuess ⟨['B', 'A', 'N', 'A', 'N', 'A'], ['_', '_', '_', '_', '_', '_'], ['Z'], 11⟩
        (toupper 'a')).guessedWord[i]? = some (toupper 'a')) ∧
    (applyGuess ⟨['B', 'A', 'N', 'A', 'N', 'A'], ['_', '_', '_', '_', '_', '_'], ['Z'], 11⟩
      (toupper 'a')).guessesLeft = 11 :=
  C2_correct_guess ['B', 'a', 'n', 'a', 'n', 'a']
    ⟨['B', 'A', 'N', 'A', 'N', 'A'], ['_', '_', '_', '_', '_', '_'], ['Z'], 11⟩ 'a'
    (by decide) (by decide) ⟨'a', by decide, rfl⟩

/-- C3. In a round on an accepted secret word `W` (stored in upper case), in
every state in which the game loop applies a guess (the first guess of the
round, and every guess read while the game is not over) and for every letter
`L` that does not occur in the word, applying the guess `L` leaves exactly one
guess fewer, the counter floored at `0`, and `L` is in the miss list
afterwards. A counter at `0` stays `0`: in a state with no guess left the loop
applies no guess, and the round ends there whatever guesses follow in the
input; the counter never exceeds `2 * W.length`, so it never wraps around. -/
theorem C3_wrong_guess (W : List Char) (hW : wordRefused W = false)
    (hlen : W.length < 2 ^ 63) :
    (∀ (history : List Char) (s : State) (L : Char), Reachable (W.map toupper) history s →
      (history = [] ∨ isGameOver s.guessedWord s.guessesLeft = false) → L ∉ W.map toupper →
      (applyGuess s L).guessesLeft = s.guessesLeft - 1 ∧
      (applyGuess s L).guessesLeft + 1 = s.guessesLeft ∧
      L ∈ (applyGuess s L).misses) ∧
    (∀ (history : List Char) (s : State), Reachable (W.map toupper) history s →
      s.guessesLeft = 0 →
      ¬ (history = [] ∨ isGameOver s.guessedWord s.guessesLeft = false)) ∧
    (∀ guesses more : List Char,
      (gameLoop (initState (W.map toupper)) guesses).guessesLeft = 0 →
      (gameLoop (initState (W.map toupper)) (guesses ++ more)).guessesLeft = 0) ∧
    (∀ (history : List Char) (s : State), Reachable (W.map toupper) history s →
      s.guessesLeft ≤ 2 * W.length) := by
  obtain ⟨h2, _⟩ := (wordRefused_eq_false W).1 hW
  have hlenU : (W.map toupper).length = W.length := List.length_map _ _
  have hcount : ∀ (history : List Char) (s : State), Reachable (W.map toupper) history s →
      s.word = W.map toupper ∧
      s.guessesLeft + wrongCount (W.map toupper) history = 2 * W.length := by
    intro history s hr
    have := counter_of_reachable (W.map toupper) history s (by omega) (by omega) hr
    rw [hlenU] at this
    exact this
  have hpos : ∀ (history : List Char) (s : State), Reachable (W.map toupper) history s →
      (history = [] ∨ isGameOver s.guessedWord s.guessesLeft = false) → 1 ≤ s.guessesLeft := by
    intro history s hr hguard
    obtain ⟨_, hc⟩ := hcount history s hr
    rcases hguard with rfl | hno
    · simp only [wrongCount, List.filter_nil, List.length_nil, Nat.add_zero] at hc
      omega
    · have := guessesLeft_ne_zero _ _ hno
      omega
  refine ⟨?_, ?_, ?_, ?_⟩
  · intro history s L hr hguard hL
    obtain ⟨hw, hc⟩ := hcount history s hr
    have h1 := hpos history s hr hguard
    have hsize : s.guessesLeft < sizeMod := by
      unfold sizeMod
      omega
    have hL1 : L ∉ s.word := hw ▸ hL
    have hdec : (applyGuess s L).guessesLeft + 1 = s.guessesLeft := by
      rw [applyGuess_of_not_mem s L hL1]
      exact sizeDec_succ _ h1 hsize
    refine ⟨by omega, hdec, ?_⟩
    rw [applyGuess_of_not_mem s L hL1]
    exact (mem_addMissedGuess L L s.misses).2 (Or.inl rfl)
  · intro history s hr hzero hguard
    have := hpos history s hr hguard
    omega
  · intro guesses more hzero
    have hne : guesses ≠ [] := by
      intro e
      subst e
      have hinit : (gameLoop (initState (W.map toupper)) []).guessesLeft
          = sizeDouble (W.map toupper).length := rfl
      rw [hinit, hlenU, sizeDouble_eq _ hlen] at hzero
      omega
    have hover := (isGameOver_eq_true
      (gameLoop (initState (W.map toupper)) guesses).guessedWord _).2 (Or.inr hzero)
    rw [(gameLoop_append_of_over _ guesses more hne hover).1]
    exact hzero
  · intro history s hr
    obtain ⟨_, hc⟩ := hcount history s hr
    omega

/-- Witness of C3: in the round on `ab`, the fourth wrong guess `Z` takes the
last guess, and a fifth one in the input is not applied. -/
theorem C3_wrong_guess_witness :
    (applyGuess (gameLoop (initState (['a', 'b'].map toupper)) ['Z', 'Q', 'X']) 'Z').guessesLeft
      = (gameLoop (initState (['a', 'b'].map toupper)) ['Z', 'Q', 'X']).guessesLeft - 1 ∧
    (gameLoop (initState (['a', 'b'].map toupper)) (['Z', 'Q', 'X', 'Z'] ++ ['Z'])).guessesLeft
      = 0 :=
  ⟨((C3_wrong_guess ['a', 'b'] (by decide) (by decide)).1 _ _ 'Z'
      (reachable_gameLoop (['a', 'b'].map toupper) ['Z', 'Q', 'X'])
      (Or.inr (by decide)) (by decide)).1,
   (C3_wrong_guess ['a', 'b'] (by decide) (by decide)).2.2.1 ['Z', 'Q', 'X', 'Z'] ['Z']
      (by decide)⟩

/-- C4. The game-over test agrees with the derived outcome of the specification:
`isGameOver g n` holds exactly when `g` has no placeholder or `n` is `0`, that
is exactly when the outcome is not InProgress; the outcome is Won exactly when
`g` has no placeholder and Lost exactly when `g` has a placeholder and `n` is
`0`, so running out of guesses with a placeholder left ends the game as Lost. -/
theorem C4_isGameOver_outcome (g : List Char) (n : Nat) :
    (isGameOver g n = true ↔ '_' ∉ g ∨ n = 0) ∧
    (isGameOver g n = true ↔ specOutcome g n ≠ GameOutcome.InProgress) ∧
    (specOutcome g n = GameOutcome.Won ↔ '_' ∉ g) ∧
    (specOutcome g n = GameOutcome.Lost ↔ '_' ∈ g ∧ n = 0) ∧
    (isGameOver g n = false ↔ specOutcome g n = GameOutcome.InProgress) := by
  have hover := isGameOver_eq_true g n
  by_cases hg : '_' ∈ g
  · by_cases hn : n = 0
    · have ho : isGameOver g n = true := hover.2 (Or.inr hn)
      subst hn
      simp [specOutcome, hg, ho]
    · have ho : isGameOver g n = false := by
        cases h : isGameOver g n with
        | false => rfl
        | true =>
          rcases hover.1 h with h1 | h1
          · exact absurd hg h1
          · exact absurd h1 hn
      simp [specOutcome, hg, hn, ho]
  · have ho : isGameOver g n = true := hover.2 (Or.inl hg)
    simp [specOutcome, hg, ho]

/-- C5. A candidate secret word is accepted exactly when it has at least two
characters and all of them are letters. A line of input that holds a refused
word is dropped and the word is asked for again; a line that holds an accepted
word makes `askForSecretWord` return its upper-case form: as long as the word,
every character the upper case of the one typed, all of them capital letters.
The empty word, `A` and `cat1` are refused and `cat` is accepted as `CAT`. -/
theorem C5_secret_word_validation :
    (∀ W : List Char, wordRefused W = false ↔ 2 ≤ W.length ∧ ∀ c ∈ W, isalpha c = true) ∧
    (∀ W rest : List Char, W ≠ [] → (∀ c ∈ W, isspace c = false) → wordRefused W = true →
      askForSecretWord (W ++ '\n' :: rest) = askForSecretWord rest) ∧
    (∀ W rest : List Char, wordRefused W = false →
      askForSecretWord (W ++ '\n' :: rest) = some (W.map toupper, '\n' :: rest) ∧
      (W.map toupper).length = W.length ∧
      (∀ i : Nat, (W.map toupper)[i]? = (W[i]?).map toupper) ∧
      ∀ c ∈ W.map toupper, c.isUpper = true) ∧
    (wordRefused [] = true ∧ wordRefused ['A'] = true ∧
      wordRefused ['c', 'a', 't', '1'] = true ∧ wordRefused ['c', 'a', 't'] = false) ∧
    (askForSecretWord [] = none ∧ askForSecretWord ['A', '\n'] = none ∧
      askForSecretWord ['c', 'a', 't', '1', '\n'] = none ∧
      askForSecretWord ['c', 'a', 't', '\n'] = some (['C', 'A', 'T'], ['\n']) ∧
      askForSecretWord ['A', '\n', 'c', 'a', 't', '1', '\n', 'c', 'a', 't', '\n']
        = some (['C', 'A', 'T'], ['\n'])) := by
  refine ⟨wordRefused_eq_false, ?_, ?_, by decide, by decide⟩
  · intro W rest hne hW href
    rw [askForSecretWord_line W rest hne hW, if_pos href]
  · intro W rest hacc
    obtain ⟨hlen, halpha⟩ := (wordRefused_eq_false W).1 hacc
    have hne : W ≠ [] := by
      intro e
      subst e
      simp at hlen
    have hW : ∀ c ∈ W, isspace c = false := fun c hc => isspace_of_isalpha c (halpha c hc)
    refine ⟨?_, List.length_map _ _, fun i => List.getElem?_map _ _ _, ?_⟩
    · rw [askForSecretWord_line W rest hne hW, hacc]
      rfl
    · intro c hc
      obtain ⟨a, ha, rfl⟩ := List.mem_map.1 hc
      exact toupper_upper a (halpha a ha)

/-- Witness of C5: the refused line `A` followed by the accepted line `cat`. -/
theorem C5_secret_word_validation_witness :
    askForSecretWord (['A'] ++ '\n' :: ['c', 'a', 't', '\n']) =
      askForSecretWord ['c', 'a', 't', '\n'] ∧
    askForSecretWord (['c', 'a', 't'] ++ '\n' :: []) =
      some (['c', 'a', 't'].map toupper, '\n' :: []) :=
  ⟨C5_secret_word_validation.2.1 ['A'] ['c', 'a', 't', '\n'] (by decide) (by decide) (by decide),
   (C5_secret_word_validation.2.2.1 ['c', 'a', 't'] [] (by decide)).1⟩

/-- C6. For every accepted secret word `W` (stored in upper case) and every
sequence of guesses that holds every letter of the word and fewer than
`2 * W.length` wrong guesses, the game loop started on the word ends with the
guessed word equal to the word, no placeholder, at least one guess left and the
game over, that is Won; when no guess of the sequence is wrong, all
`2 * W.length` guesses are left. On `CAT` the guesses `Z`, `C`, `A`, `T` give
5 guesses left and the miss `Z`, then `C__`, `CA_` and at last `CAT`. -/
theorem C6_winnable (W guesses : List Char) (hW : wordRefused W = false)
    (hlen : W.length < 2 ^ 63) (hall : ∀ c ∈ W.map toupper, c ∈ guesses)
    (hwrong : wrongCount (W.map toupper) guesses < 2 * W.length) :
    (gameLoop (initState (W.map toupper)) guesses).guessedWord = W.map toupper ∧
    '_' ∉ (gameLoop (initState (W.map toupper)) guesses).guessedWord ∧
    0 < (gameLoop (initState (W.map toupper)) guesses).guessesLeft ∧
    isGameOver (gameLoop (initState (W.map toupper)) guesses).guessedWord
      (gameLoop (initState (W.map toupper)) guesses).guessesLeft = true ∧
    specOutcome (gameLoop (initState (W.map toupper)) guesses).guessedWord
      (gameLoop (initState (W.map toupper)) guesses).guessesLeft = GameOutcome.Won ∧
    ((∀ g ∈ guesses, g ∈ W.map toupper) →
      (gameLoop (initState (W.map toupper)) guesses).guessesLeft = 2 * W.length) ∧
    (gameLoop (initState ['C', 'A', 'T']) ['Z'] = ⟨['C', 'A', 'T'], ['_', '_', '_'], ['Z'], 5⟩ ∧
      gameLoop (initState ['C', 'A', 'T']) ['Z', 'C']
        = ⟨['C', 'A', 'T'], ['C', '_', '_'], ['Z'], 5⟩ ∧
      gameLoop (initState ['C', 'A', 'T']) ['Z', 'C', 'A']
        = ⟨['C', 'A', 'T'], ['C', 'A', '_'], ['Z'], 5⟩ ∧
      gameLoop (initState ['C', 'A', 'T']) ['Z', 'C', 'A', 'T']
        = ⟨['C', 'A', 'T'], ['C', 'A', 'T'], ['Z'], 5⟩ ∧
      isGameOver ['C', 'A', 'T'] 5 = true ∧ specOutcome ['C', 'A', 'T'] 5 = GameOutcome.Won) := by
  obtain ⟨h2, halpha⟩ := (wordRefused_eq_false W).1 hW
  have hlenU : (W.map toupper).length = W.length := List.length_map _ _
  have hno : '_' ∉ W.map toupper := by
    intro hm
    obtain ⟨a, ha, hau⟩ := List.mem_map.1 hm
    exact isUpper_ne_underscore _ (toupper_upper a (halpha a ha)) hau
  obtain ⟨unread, hunread⟩ := appliedGuesses_initial (initState (W.map toupper)) guesses
  obtain ⟨_, hg, _, _⟩ := roundInv_gameLoop (W.map toupper) guesses
  have hcount := counter_gameLoop (W.map toupper) guesses (by omega) (by omega)
  rw [hlenU] at hcount
  have hle : wrongCount (W.map toupper) (appliedGuesses (initState (W.map toupper)) guesses)
      ≤ wrongCount (W.map toupper) guesses := by
    conv_rhs => rw [hunread]
    exact wrongCount_le_append _ _ _
  have hpos : 0 < (gameLoop (initState (W.map toupper)) guesses).guessesLeft := by omega
  have hallApplied : ∀ c ∈ W.map toupper,
      c ∈ appliedGuesses (initState (W.map toupper)) guesses := by
    rcases gameLoop_over_or_all (initState (W.map toupper)) guesses with hover | hallread
    · rcases (isGameOver_eq_true _ _).1 hover with h | h
      · rw [hg] at h
        exact all_mem_of_revealedBy _ _ h
      · omega
    · rw [hallread]
      exact hall
  have hword : (gameLoop (initState (W.map toupper)) guesses).guessedWord = W.map toupper := by
    rw [hg]
    exact revealedBy_of_all_mem _ _ hallApplied
  have hnone : '_' ∉ (gameLoop (initState (W.map toupper)) guesses).guessedWord := by
    rw [hword]
    exact hno
  refine ⟨hword, hnone, hpos, (isGameOver_eq_true _ _).2 (Or.inl hnone), ?_, ?_, by decide⟩
  · unfold specOutcome
    rw [if_pos hnone]
  · intro hright
    have hzero : wrongCount (W.map toupper)
        (appliedGuesses (initState (W.map toupper)) guesses) = 0 := by
      unfold wrongCount
      rw [List.length_eq_zero, List.filter_eq_nil_iff]
      intro g hgmem
      have hgin : g ∈ guesses := by
        rw [hunread]
        exact List.mem_append_left _ hgmem
      simp [(isGuessInWord_iff g (W.map toupper)).2 (hright g hgin)]
    omega

/-- Witness of C6: the word `cat` and the guesses `Z`, `C`, `A`, `T`. -/
theorem C6_winnable_witness :
    (gameLoop (initState (['c', 'a', 't'].map toupper)) ['Z', 'C', 'A', 'T']).guessedWord
      = ['c', 'a', 't'].map toupper ∧
    0 < (gameLoop (initState (['c', 'a', 't'].map toupper)) ['Z', 'C', 'A', 'T']).guessesLeft :=
  ⟨(C6_winnable ['c', 'a', 't'] ['Z', 'C', 'A', 'T'] (by decide) (by decide) (by decide)
      (by decide)).1,
   (C6_winnable ['c', 'a', 't'] ['Z', 'C', 'A', 'T'] (by decide) (by decide) (by decide)
      (by decide)).2.2.1⟩

/-- C7. For every state of a round with at least two guesses left (the counter
a `size_t`, the miss list without duplicates as in every state of a round) and
every letter `L` that is not in the word, guessing `L` twice in a row leaves `L`
exactly once in the miss list, the second guess not changing the list, while
the guesses left go down by two; the loop does apply both guesses when the game
was not over before. -/
theorem C7_repeated_wrong_guess (s : State) (L : Char) (hL : L ∉ s.word)
    (h2 : 2 ≤ s.guessesLeft) (hsize : s.guessesLeft < sizeMod) (hnd : s.misses.Nodup) :
    (applyGuess (applyGuess s L) L).misses.count L = 1 ∧
    (applyGuess (applyGuess s L) L).misses = (applyGuess s L).misses ∧
    (applyGuess (applyGuess s L) L).guessesLeft + 2 = s.guessesLeft ∧
    (isGameOver s.guessedWord s.guessesLeft = false →
      gameLoop s [L, L] = applyGuess (applyGuess s L) L) := by
  have e1 := applyGuess_of_not_mem s L hL
  have hL1 : L ∉ (applyGuess s L).word := by
    rw [e1]
    exact hL
  have e2 := applyGuess_of_not_mem (applyGuess s L) L hL1
  have hmem : L ∈ (applyGuess s L).misses := by
    rw [e1]
    exact (mem_addMissedGuess L L s.misses).2 (Or.inl rfl)
  have hnd1 : (applyGuess s L).misses.Nodup := by
    rw [e1]
    exact nodup_addMissedGuess L s.misses hnd
  have hm2 : (applyGuess (applyGuess s L) L).misses = (applyGuess s L).misses := by
    rw [e2]
    exact addMissedGuess_of_mem L _ hmem
  have hc1 : (applyGuess s L).guessesLeft + 1 = s.guessesLeft := by
    rw [e1]
    exact sizeDec_succ _ (by omega) hsize
  have hc2 : (applyGuess (applyGuess s L) L).guessesLeft + 1 = (applyGuess s L).guessesLeft := by
    rw [e2]
    exact sizeDec_succ _ (by omega) (by omega)
  refine ⟨?_, hm2, by omega, ?_⟩
  · rw [hm2]
    exact List.count_eq_one_of_mem hnd1 hmem
  · intro hno
    have hplace : '_' ∈ s.guessedWord := by
      by_contra hc
      have := (isGameOver_eq_true s.guessedWord s.guessesLeft).2 (Or.inl hc)
      rw [hno] at this
      exact Bool.noConfusion this
    have hg1 : (applyGuess s L).guessedWord = s.guessedWord := by
      rw [e1]
    have hover1 : ¬ isGameOver (applyGuess s L).guessedWord (applyGuess s L).guessesLeft = true := by
      intro hc
      rcases (isGameOver_eq_true _ _).1 hc with h | h
      · rw [hg1] at h
        exact h hplace
      · omega
    simp only [gameLoop]
    rw [if_neg hover1]
    split <;> rfl

/-- Witness of C7: the wrong guess `Z` twice at the start of a round on `CAT`. -/
theorem C7_repeated_wrong_guess_witness :
    (applyGuess (applyGuess (initState ['C', 'A', 'T']) 'Z') 'Z').misses.count 'Z' = 1 ∧
    (applyGuess (applyGuess (initState ['C', 'A', 'T']) 'Z') 'Z').guessesLeft + 2
      = (initState ['C', 'A', 'T']).guessesLeft :=
  ⟨(C7_repeated_wrong_guess (initState ['C', 'A', 'T']) 'Z' (by decide) (by decide) (by decide)
      (by decide)).1,
   (C7_repeated_wrong_guess (initState ['C', 'A', 'T']) 'Z' (by decide) (by decide) (by decide)
      (by decide)).2.2.1⟩

/-- C8. In every state that a round on an accepted word `W` (stored in upper
case) reaches, the guessed word is as long as `W` and holds, at every index,
the letter of the word when that letter is among the guesses applied so far and
the placeholder `'_'` otherwise: a position is revealed exactly when its letter
has been guessed. -/
theorem C8_revealed_invariant (W history : List Char) (s : State)
    (hW : wordRefused W = false) (hr : Reachable (W.map toupper) history s) :
    s.guessedWord.length = W.length ∧
    (∀ (i : Nat) (c : Char), (W.map toupper)[i]? = some c →
      s.guessedWord[i]? = some (if c ∈ history then c else '_')) ∧
    (∀ (i : Nat) (c : Char), (W.map toupper)[i]? = some c →
      (s.guessedWord[i]? = some c ↔ c ∈ history)) ∧
    (∀ (i : Nat) (c : Char), (W.map toupper)[i]? = some c →
      (s.guessedWord[i]? = some '_' ↔ c ∉ history)) := by
  obtain ⟨_, halpha⟩ := (wordRefused_eq_false W).1 hW
  obtain ⟨_, hg, _, _⟩ := roundInv_of_reachable _ _ _ hr
  have hget : ∀ (i : Nat) (c : Char), (W.map toupper)[i]? = some c →
      s.guessedWord[i]? = some (if c ∈ history then c else '_') := by
    intro i c hi
    rw [hg, revealedBy_getElem?, hi]
    rfl
  have hne : ∀ (i : Nat) (c : Char), (W.map toupper)[i]? = some c → c ≠ '_' := by
    intro i c hi
    have hmem : c ∈ W.map toupper := List.getElem?_mem hi
    obtain ⟨a, ha, rfl⟩ := List.mem_map.1 hmem
    exact isUpper_ne_underscore _ (toupper_upper a (halpha a ha))
  refine ⟨?_, hget, ?_, ?_⟩
  · rw [hg]
    simp [revealedBy]
  · intro i c hi
    rw [hget i c hi]
    by_cases hc : c ∈ history
    · simp [hc]
    · have := hne i c hi
      simp [hc, this.symm]
  · intro i c hi
    rw [hget i c hi]
    by_cases hc : c ∈ history
    · have := hne i c hi
      simp [hc, this]
    · simp [hc]

/-- Witness of C8: the round on `cat` after the guesses `Z` and `A`. -/
theorem C8_revealed_invariant_witness :
    (gameLoop (initState (['c', 'a', 't'].map toupper)) ['Z', 'A']).guessedWord.length = 3 ∧
    ∀ (i : Nat) (c : Char), (['c', 'a', 't'].map toupper)[i]? = some c →
      (gameLoop (initState (['c', 'a', 't'].map toupper)) ['Z', 'A']).guessedWord[i]?
        = some (if c ∈ appliedGuesses (initState (['c', 'a', 't'].map toupper)) ['Z', 'A']
            then c else '_') :=
  ⟨(C8_revealed_invariant ['c', 'a', 't'] _ _ (by decide)
      (reachable_gameLoop (['c', 'a', 't'].map toupper) ['Z', 'A'])).1,
   (C8_revealed_invariant ['c', 'a', 't'] _ _ (by decide)
      (reachable_gameLoop (['c', 'a', 't'].map toupper) ['Z', 'A'])).2.1⟩

/-- C9. `addMissedGuess` keeps a miss list free of duplicates and leaves the
guess in it; in every state that a round on a word reaches, the miss list has
no duplicates and holds exactly the guesses applied so far that are not in the
word, and these are capital letters when the guesses are, as `makeGuess`
returns them. -/
theorem C9_missed_invariant :
    (∀ (guess : Char) (misses : List Char), misses.Nodup →
      (addMissedGuess guess misses).Nodup ∧ guess ∈ addMissedGuess guess misses) ∧
    (∀ (word history : List Char) (s : State), Reachable word history s →
      s.misses.Nodup ∧ (∀ c, c ∈ s.misses ↔ c ∈ history ∧ c ∉ word) ∧
      ((∀ g ∈ history, g.isUpper = true) → ∀ c ∈ s.misses, c.isUpper = true)) := by
  constructor
  · intro guess misses hnd
    exact ⟨nodup_addMissedGuess guess misses hnd,
      (mem_addMissedGuess guess guess misses).2 (Or.inl rfl)⟩
  · intro word history s hr
    obtain ⟨_, _, hnd, hm⟩ := roundInv_of_reachable _ _ _ hr
    exact ⟨hnd, hm, fun hup c hc => hup c ((hm c).1 hc).1⟩

/-- Witness of C9: the miss list `Z` and the guess `Q`, and the round on `CAT`
after the guesses `Z`, `A`, `Z`, `Q`. -/
theorem C9_missed_invariant_witness :
    ((addMissedGuess 'Q' ['Z']).Nodup ∧ 'Q' ∈ addMissedGuess 'Q' ['Z']) ∧
    (gameLoop (initState ['C', 'A', 'T']) ['Z', 'A', 'Z', 'Q']).misses.Nodup :=
  ⟨C9_missed_invariant.1 'Q' ['Z'] (by decide),
   (C9_missed_invariant.2 ['C', 'A', 'T'] _ _
      (reachable_gameLoop ['C', 'A', 'T'] ['Z', 'A', 'Z', 'Q'])).1⟩

/-- C10, as the code has it. On a line of guess input whose first non-blank
character `c` is not a letter, `makeGuess` drops the line and asks again, so
the turn is the turn on the input after that line and the state is not touched
by it. When `c` is a letter the line is accepted whatever follows `c` on it:
`makeGuess` returns `c` in upper case, a capital letter, and the turn applies
that guess; the interactive variant drops the rest of the line, the
argument-driven variant leaves it unread. -/
theorem C10_guess_validation (s : State) (ws tail rest : List Char) (c : Char)
    (hws : ∀ x ∈ ws, isspace x = true) (hc : isspace c = false)
    (htail : ∀ x ∈ tail, x ≠ '\n') :
    (isalpha c = false →
      makeGuess (ws ++ c :: (tail ++ '\n' :: rest)) = makeGuess rest ∧
      playTurn s (ws ++ c :: (tail ++ '\n' :: rest)) = playTurn s rest ∧
      ArgDriven.makeGuess (ws ++ c :: (tail ++ '\n' :: rest)) = ArgDriven.makeGuess rest) ∧
    (isalpha c = true →
      makeGuess (ws ++ c :: (tail ++ '\n' :: rest)) = some (toupper c, rest) ∧
      playTurn s (ws ++ c :: (tail ++ '\n' :: rest)) = some (applyGuess s (toupper c), rest) ∧
      ArgDriven.makeGuess (ws ++ c :: (tail ++ '\n' :: rest))
        = some (toupper c, tail ++ '\n' :: rest) ∧
      (toupper c).isUpper = true) := by
  have h1 := makeGuess_line ws tail rest c hws hc htail
  have h2 := ArgDriven.argMakeGuess_line ws tail rest c hws hc htail
  constructor
  · intro hna
    rw [hna, if_neg Bool.false_ne_true] at h1 h2
    refine ⟨h1, ?_, h2⟩
    unfold playTurn
    rw [h1]
  · intro ha
    rw [ha, if_pos rfl] at h1 h2
    refine ⟨h1, ?_, h2, toupper_upper c ha⟩
    unfold playTurn
    rw [h1]

/-- Witness of C10: the refused line `5` and the accepted line `ab` in a round
on `CAT`. -/
theorem C10_guess_validation_witness :
    playTurn (initState ['C', 'A', 'T']) ([] ++ '5' :: ([] ++ '\n' :: ['t', '\n']))
      = playTurn (initState ['C', 'A', 'T']) ['t', '\n'] ∧
    playTurn (initState ['C', 'A', 'T']) ([' '] ++ 'a' :: (['b'] ++ '\n' :: []))
      = some (applyGuess (initState ['C', 'A', 'T']) (toupper 'a'), []) :=
  ⟨((C10_guess_validation (initState ['C', 'A', 'T']) [] [] ['t', '\n'] '5' (by decide)
      (by decide) (by decide)).1 (by decide)).2.1,
   ((C10_guess_validation (initState ['C', 'A', 'T']) [' '] ['b'] [] 'a' (by decide)
      (by decide) (by decide)).2 (by decide)).2.1⟩

/-- C10 fails as stated. The two-character line `ab` is not refused: `makeGuess`
returns `A` and drops the `b`, and the turn reveals the `A` of `CAT`; in the
argument-driven variant the `b` stays unread and is the next guess. The line
`5` is refused. -/
theorem C10_two_characters_accepted :
    makeGuess ['a', 'b', '\n'] = some ('A', []) ∧
    playTurn (initState ['C', 'A', 'T']) ['a', 'b', '\n']
      = some (⟨['C', 'A', 'T'], ['_', 'A', '_'], [], 6⟩, []) ∧
    (initState ['C', 'A', 'T']).guessedWord = ['_', '_', '_'] ∧
    ArgDriven.makeGuess ['a', 'b', '\n'] = some ('A', ['b', '\n']) ∧
    ArgDriven.makeGuess ['b', '\n'] = some ('B', ['\n']) ∧
    makeGuess ['5', '\n'] = none ∧
    makeGuess ['5', '\n', 'c', '\n'] = some ('C', []) := by
  decide

/-- C12. Guessing a correct letter again changes nothing: `compareGuessToWord`
applied twice with the same letter gives the guessed word that one application
gives, the loop body applied twice with a letter of the word gives the state
that one application gives, and in every state of a round the loop body applied
to a letter of the word that is among the guesses applied so far leaves the
state, with its guessed word, miss list and guesses left, as it is. -/
theorem C12_reguess_noop :
    (∀ (L : Char) (W g : List Char),
      compareGuessToWord L W (compareGuessToWord L W g) = compareGuessToWord L W g) ∧
    (∀ (s : State) (L : Char), L ∈ s.word →
      applyGuess (applyGuess s L) L = applyGuess s L) ∧
    (∀ (word history : List Char) (s : State) (L : Char), Reachable word history s →
      L ∈ word → L ∈ history → applyGuess s L = s) := by
  refine ⟨compareGuessToWord_idem, ?_, ?_⟩
  · intro s L hL
    have e1 := applyGuess_of_mem s L hL
    have hL1 : L ∈ (applyGuess s L).word := by
      rw [e1]
      exact hL
    rw [applyGuess_of_mem (applyGuess s L) L hL1]
    rw [e1]
    simp only [compareGuessToWord_idem]
  · intro word history s L hr hLw hLh
    obtain ⟨hw, hg, _, _⟩ := roundInv_of_reachable _ _ _ hr
    rw [applyGuess_of_mem s L (hw ▸ hLw)]
    have : compareGuessToWord L s.word s.guessedWord = s.guessedWord := by
      rw [hw, hg, compareGuessToWord_revealedBy, revealedBy_append_of_mem L word history hLh]
    rw [this]

/-- Witness of C12: the guess `A` twice on `BANANA`, and `A` again in the round
on `CAT` after the guesses `Z` and `A`. -/
theorem C12_reguess_noop_witness :
    applyGuess (applyGuess (initState ['B', 'A', 'N', 'A', 'N', 'A']) 'A') 'A'
      = applyGuess (initState ['B', 'A', 'N', 'A', 'N', 'A']) 'A' ∧
    applyGuess (gameLoop (initState ['C', 'A', 'T']) ['Z', 'A']) 'A'
      = gameLoop (initState ['C', 'A', 'T']) ['Z', 'A'] :=
  ⟨C12_reguess_noop.2.1 (initState ['B', 'A', 'N', 'A', 'N', 'A']) 'A' (by decide),
   C12_reguess_noop.2.2 ['C', 'A', 'T'] _ _ 'A'
     (reachable_gameLoop ['C', 'A', 'T'] ['Z', 'A']) (by decide) (by decide)⟩

/-- C13. The two variants have the same core. For every word `W` and every
guess, `isGuessInWord` and `compareGuessToWord` of the argument-driven variant
on `W` give the decision and the guessed word that those of the interactive
variant give on `W` in upper case; `addMissedGuess` and `isGameOver` are the
same functions; so the round starts, the loop body and the whole game loop of
the argument-driven variant, seen with the word in upper case, are those of the
interactive variant, with the same guessed word, miss list and guesses left. -/
theorem C13_variants_agree :
    (∀ (guess : Char) (W : List Char),
      ArgDriven.isGuessInWord guess W = isGuessInWord guess (W.map toupper)) ∧
    (∀ (guess : Char) (W gw : List Char),
      ArgDriven.compareGuessToWord guess W gw = compareGuessToWord guess (W.map toupper) gw) ∧
    (∀ (guess : Char) (misses : List Char),
      ArgDriven.addMissedGuess guess misses = addMissedGuess guess misses) ∧
    (∀ (gw : List Char) (n : Nat), ArgDriven.isGameOver gw n = isGameOver gw n) ∧
    (∀ W : List Char, ArgDriven.storedForm (ArgDriven.initState W) = initState (W.map toupper)) ∧
    (∀ (s : State) (guess : Char),
      ArgDriven.storedForm (ArgDriven.applyGuess s guess)
        = applyGuess (ArgDriven.storedForm s) guess ∧
      (ArgDriven.applyGuess s guess).guessedWord
        = (applyGuess (ArgDriven.storedForm s) guess).guessedWord ∧
      (ArgDriven.applyGuess s guess).misses
        = (applyGuess (ArgDriven.storedForm s) guess).misses ∧
      (ArgDriven.applyGuess s guess).guessesLeft
        = (applyGuess (ArgDriven.storedForm s) guess).guessesLeft) ∧
    (∀ (W guesses : List Char),
      ArgDriven.storedForm (ArgDriven.gameLoop (ArgDriven.initState W) guesses)
        = gameLoop (initState (W.map toupper)) guesses) := by
  refine ⟨arg_isGuessInWord_eq, arg_compareGuessToWord_eq, fun _ _ => rfl, fun _ _ => rfl,
    ?_, ?_, ?_⟩
  · intro W
    simp [ArgDriven.storedForm, ArgDriven.initState, initState]
  · intro s guess
    have h := arg_applyGuess_eq s guess
    refine ⟨h, ?_, ?_, ?_⟩
    · rw [← h]
      rfl
    · rw [← h]
      rfl
    · rw [← h]
      rfl
  · intro W guesses
    rw [arg_gameLoop_eq]
    simp [ArgDriven.storedForm, ArgDriven.initState, initState]

/-- C14 on the code. `main` of the argument-driven variant fails only when
the word argument is missing. An empty word, the one-letter word `A` and the
word `cat1` all start the round, with `0`, `2` and `8` guesses left; on the
empty word the first guess is a miss that wraps the counter around to
`2 ^ 64 - 1`, and on `a1` the round is lost with the `1` still hidden, a
character that `makeGuess` never returns. The interactive variant refuses the
first three words. -/
theorem C14_argument_word_not_validated :
    ArgDriven.main [['h']] ['Z'] = ArgDriven.MainRun.exitFailure ∧
    ArgDriven.main [['h'], []] [] = ArgDriven.MainRun.round ⟨[], [], [], 0⟩ ∧
    ArgDriven.main [['h'], []] ['Z']
      = ArgDriven.MainRun.round ⟨[], [], ['Z'], 18446744073709551615⟩ ∧
    ArgDriven.main [['h'], ['A']] [] = ArgDriven.MainRun.round ⟨['A'], ['_'], [], 2⟩ ∧
    ArgDriven.main [['h'], ['c', 'a', 't', '1']] []
      = ArgDriven.MainRun.round ⟨['c', 'a', 't', '1'], ['_', '_', '_', '_'], [], 8⟩ ∧
    ArgDriven.main [['h'], ['a', '1']] ['A', 'Z', 'Z', 'Z', 'Z']
      = ArgDriven.MainRun.round ⟨['a', '1'], ['A', '_'], ['Z'], 0⟩ ∧
    wordRefused [] = true ∧ wordRefused ['A'] = true ∧
    wordRefused ['c', 'a', 't', '1'] = true := by
  decide

/-- C15. The frame of a guess: a wrong guess leaves the guessed word as it is;
a correct guess of the letter `L` leaves the miss list as it is and leaves the
guessed word as it is at every index where the word does not have `L`; no
guess changes the length of the guessed word or the secret word. -/
theorem C15_frame (s : State) (L : Char) :
    (L ∉ s.word → (applyGuess s L).guessedWord = s.guessedWord) ∧
    (L ∈ s.word → (applyGuess s L).misses = s.misses ∧
      ∀ i : Nat, s.word[i]? ≠ some L → (applyGuess s L).guessedWord[i]? = s.guessedWord[i]?) ∧
    (applyGuess s L).guessedWord.length = s.guessedWord.length ∧
    (applyGuess s L).word = s.word := by
  by_cases hL : L ∈ s.word
  · have e := applyGuess_of_mem s L hL
    refine ⟨fun hn => absurd hL hn, fun _ => ⟨by rw [e], ?_⟩, ?_, by rw [e]⟩
    · intro i hi
      rw [e]
      show (compareGuessToWord L s.word s.guessedWord)[i]? = s.guessedWord[i]?
      rw [compareGuessToWord_getElem?, if_neg (fun h => hi h.1)]
    · rw [e]
      exact compareGuessToWord_length L s.word s.guessedWord
  · have e := applyGuess_of_not_mem s L hL
    exact ⟨fun _ => by rw [e], fun h => absurd h hL, by rw [e], by rw [e]⟩

/-- Witness of C15: the wrong guess `Z` and the correct guess `A` in the round
on `CAT` after the guess `C`. -/
theorem C15_frame_witness :
    (applyGuess ⟨['C', 'A', 'T'], ['C', '_', '_'], [], 6⟩ 'Z').guessedWord = ['C', '_', '_'] ∧
    (applyGuess ⟨['C', 'A', 'T'], ['C', '_', '_'], [], 6⟩ 'A').misses = [] :=
  ⟨(C15_frame ⟨['C', 'A', 'T'], ['C', '_', '_'], [], 6⟩ 'Z').1 (by decide),
   ((C15_frame ⟨['C', 'A', 'T'], ['C', '_', '_'], [], 6⟩ 'A').2.1 (by decide)).1⟩

/-- C16. In every state that the interactive game loop reaches on an accepted
word `W` (stored in upper case), the guesses left and the wrong guesses applied
so far, repeats included, add up to `2 * W.length` as natural numbers; whenever
the loop applies a guess at least one guess is left, so the decrement of a
wrong guess takes exactly one away and does not wrap around; and a round has at
most `2 * W.length` wrong guesses. -/
theorem C16_attempt_accounting (W history : List Char) (s : State)
    (hW : wordRefused W = false) (hlen : W.length < 2 ^ 63)
    (hr : Reachable (W.map toupper) history s) :
    s.guessesLeft + wrongCount (W.map toupper) history = 2 * W.length ∧
    ((history = [] ∨ isGameOver s.guessedWord s.guessesLeft = false) → 1 ≤ s.guessesLeft) ∧
    (∀ g : Char, (history = [] ∨ isGameOver s.guessedWord s.guessesLeft = false) →
      g ∉ W.map toupper → (applyGuess s g).guessesLeft + 1 = s.guessesLeft) ∧
    wrongCount (W.map toupper) history ≤ 2 * W.length ∧
    s.guessesLeft < sizeMod := by
  obtain ⟨h2, _⟩ := (wordRefused_eq_false W).1 hW
  have hlenU : (W.map toupper).length = W.length := List.length_map _ _
  obtain ⟨hw, hc⟩ := counter_of_reachable (W.map toupper) history s (by omega) (by omega) hr
  rw [hlenU] at hc
  have hsize : s.guessesLeft < sizeMod := by
    unfold sizeMod
    omega
  have hpos : (history = [] ∨ isGameOver s.guessedWord s.guessesLeft = false) →
      1 ≤ s.guessesLeft := by
    rintro (rfl | hno)
    · simp only [wrongCount, List.filter_nil, List.length_nil, Nat.add_zero] at hc
      omega
    · have := guessesLeft_ne_zero _ _ hno
      omega
  refine ⟨hc, hpos, ?_, by omega, hsize⟩
  intro g hguard hg
  rw [applyGuess_of_not_mem s g (hw ▸ hg)]
  exact sizeDec_succ _ (hpos hguard) hsize

/-- Witness of C16: the round on `ab` after its four wrong guesses. -/
theorem C16_attempt_accounting_witness :
    (gameLoop (initState (['a', 'b'].map toupper)) ['Z', 'Q', 'Z', 'X']).guessesLeft
      + wrongCount (['a', 'b'].map toupper)
          (appliedGuesses (initState (['a', 'b'].map toupper)) ['Z', 'Q', 'Z', 'X'])
      = 2 * 2 :=
  (C16_attempt_accounting ['a', 'b'] _ _ (by decide) (by decide)
    (reachable_gameLoop (['a', 'b'].map toupper) ['Z', 'Q', 'Z', 'X'])).1

end Hangman
